import Mathlib

set_option maxRecDepth 2000

/-!
Verification of the carrotson Markov-chain text generator.

The repository has two source files implementing the same pipeline with two
frequency-table representations:
  * `src/carrotson.rs` — sparse tables (`Vec<(u8, u32)>`), Schema A
    serialization (8-byte record count, per record an 8-byte context, a 1-byte
    entry count, and 5-byte entries), namespace `Sparse` below;
  * `src/main.rs` — dense tables (`[u16; 256]` with saturate-and-decay),
    namespace `DenseRs` below.

Machine integers are modelled as `Nat` with explicit truncation:
`% 18446744073709551616` for `u64` wrapping, `% 4294967296` for `u32`
wrapping, `% 256` for `as u8` casts, and `< 65535` saturation checks for the
dense `u16` counters.  The mutable `LCG` is modelled by explicit state
passing: `random_u32` maps a state to (drawn value, new state).
-/

/-- `LCG::random_u32` from both files: `state = state * A` (wrapping),
`state = state + C` (wrapping), return the upper 32 bits of the new state. -/
def random_u32 (state : Nat) : Nat × Nat :=
  let s1 := state * 6364136223846793005 % 18446744073709551616
  let s2 := (s1 + 1442695040888963407) % 18446744073709551616
  (s2 >>> 32, s2)

/-- `context_push` / the `Slicer` window update from both files:
`(window << 8) | (next as u64)` on a wrapping `u64`, with a `u8` argument. -/
def context_push (context x : Nat) : Nat :=
  ((context <<< 8) % 18446744073709551616) ||| (x % 256)

/-- `Slicer::next` iterated from an arbitrary window: emits `(window, b)` for
each input byte `b` and then folds `b` into the window. -/
def slicerFrom : Nat → List Nat → List (Nat × Nat)
  | _, [] => []
  | window, b :: rest => (window, b) :: slicerFrom (context_push window b) rest

/-- `Slicer::new(bytes)` drained as a list: window starts at 0, cursor at 0. -/
def slicer (bytes : List Nat) : List (Nat × Nat) :=
  slicerFrom 0 bytes

/-- `HashMap::get` on an association list (the embedding of `Model.model`). -/
def findCtx {α : Type} : List (Nat × α) → Nat → Option α
  | [], _ => none
  | (c, f) :: rest, context => if c = context then some f else findCtx rest context

/-- `u32::to_le_bytes`: four little-endian bytes. -/
def u32le (n : Nat) : List Nat :=
  [n % 256, n / 256 % 256, n / 65536 % 256, n / 16777216 % 256]

/-- `u64::to_le_bytes`: eight little-endian bytes. -/
def u64le (n : Nat) : List Nat :=
  [n % 256, n / 256 % 256, n / 65536 % 256, n / 16777216 % 256,
   n / 4294967296 % 256, n / 1099511627776 % 256,
   n / 281474976710656 % 256, n / 72057594037927936 % 256]

/-- `read_u8` from `carrotson.rs`: read one byte or fail at end of stream. -/
def read_u8 : List Nat → Option (Nat × List Nat)
  | [] => none
  | b :: rest => some (b, rest)

/-- `read_u32` from `carrotson.rs`: four little-endian bytes or failure. -/
def read_u32 : List Nat → Option (Nat × List Nat)
  | b0 :: b1 :: b2 :: b3 :: rest =>
      some (b0 + 256 * b1 + 65536 * b2 + 16777216 * b3, rest)
  | _ => none

/-- `read_u64` from `carrotson.rs`: eight little-endian bytes or failure. -/
def read_u64 : List Nat → Option (Nat × List Nat)
  | b0 :: b1 :: b2 :: b3 :: b4 :: b5 :: b6 :: b7 :: rest =>
      some (b0 + 256 * b1 + 65536 * b2 + 16777216 * b3 + 4294967296 * b4 +
        1099511627776 * b5 + 281474976710656 * b6 + 72057594037927936 * b7, rest)
  | _ => none

namespace Sparse

/-- `Freq` from `carrotson.rs`: `tokens: Vec<(u8, u32)>`. -/
abbrev Freq := List (Nat × Nat)

/-- `Freq::new`. -/
def Freq.new : Freq := []

/-- `Freq::push`: increment the first matching entry (wrapping `u32`
addition), append `(x, 1)` when no entry matches. -/
def Freq.push : Freq → Nat → Freq
  | [], x => [(x, 1)]
  | (y, p) :: rest, x =>
    if y = x then (y, (p + 1) % 4294967296) :: rest
    else (y, p) :: Freq.push rest x

/-- The scan loop of `Freq::random`: running sum `psum`, return the first
entry whose cumulative sum strictly exceeds `index`. -/
def scanTok : Freq → Nat → Nat → Option Nat
  | [], _, _ => none
  | (y, p) :: rest, psum, index =>
    if index < psum + p then some y else scanTok rest (psum + p) index

/-- `Freq::random`: when the total count is positive, draw once from the LCG
and scan; otherwise return `None` without touching the LCG. -/
def Freq.random (f : Freq) (state : Nat) : Option Nat × Nat :=
  if 0 < (f.map Prod.snd).sum then
    (scanTok f 0 ((random_u32 state).1 % (f.map Prod.snd).sum), (random_u32 state).2)
  else (none, state)

/-- `Freq::write_to`: entry count as one byte (`len as u8`), then per entry
one token byte and a 4-byte little-endian count. -/
def Freq.write_to (f : Freq) : List Nat :=
  (f.length % 256) :: f.flatMap (fun e => e.1 % 256 :: u32le e.2)

/-- The entry-reading loop of `Freq::read_from` (the `?` operator is
`Option.bind`). -/
def readTok : Nat → List Nat → Option (Freq × List Nat)
  | 0, bs => some ([], bs)
  | n + 1, bs =>
    (read_u8 bs).bind fun xs =>
      (read_u32 xs.2).bind fun ps =>
        (readTok n ps.2).bind fun fs =>
          some ((xs.1, ps.1) :: fs.1, fs.2)

/-- `Freq::read_from`: a 1-byte entry count, then that many entries. -/
def Freq.read_from (bs : List Nat) : Option (Freq × List Nat) :=
  (read_u8 bs).bind fun cs => readTok cs.1 cs.2

/-- `Model` from `carrotson.rs`: `HashMap<u64, Freq>` as an association
list. -/
abbrev Model := List (Nat × Freq)

/-- `Model::push`: push into the table of `context`, creating it if absent. -/
def Model.push : Model → Nat → Nat → Model
  | [], context, x => [(context, Freq.push Freq.new x)]
  | (c, f) :: rest, context, x =>
    if c = context then (c, Freq.push f x) :: rest
    else (c, f) :: Model.push rest context x

/-- `Model::random`: `self.model.get(&context).and_then(|f| f.random(lcg))`. -/
def Model.random (m : Model) (context state : Nat) : Option Nat × Nat :=
  match findCtx m context with
  | none => (none, state)
  | some f => Freq.random f state

/-- `Model::write_to`: 8-byte record count, then per record the 8-byte
context followed by the serialized table. -/
def Model.write_to (m : Model) : List Nat :=
  u64le m.length ++ m.flatMap (fun e => u64le e.1 ++ Freq.write_to e.2)

/-- `HashMap::insert`: replace the entry when the key is present, append
otherwise. -/
def Model.insert : Model → Nat → Freq → Model
  | [], context, f => [(context, f)]
  | (c, g) :: rest, context, f =>
    if c = context then (context, f) :: rest
    else (c, g) :: Model.insert rest context f

/-- The record-reading loop of `Model::read_from`. -/
def readRecords : Nat → Model → List Nat → Option (Model × List Nat)
  | 0, acc, bs => some (acc, bs)
  | n + 1, acc, bs =>
    (read_u64 bs).bind fun cs =>
      (Freq.read_from cs.2).bind fun fs =>
        readRecords n (Model.insert acc cs.1 fs.1) fs.2

/-- `Model::read_from`: an 8-byte record count, then that many records;
trailing bytes are left unread. -/
def Model.read_from (bs : List Nat) : Option (Model × List Nat) :=
  (read_u64 bs).bind fun cs => readRecords cs.1 [] cs.2

/-- The training loop of the `train`/`stats` subcommands: feed every pair
produced by the slicer into `Model::push`, starting from an empty model. -/
def train (bytes : List Nat) : Model :=
  (slicer bytes).foldl (fun m e => Model.push m e.1 e.2) []

/-- Sum of all counts stored in one sparse table. -/
def freqTotal (f : Freq) : Nat := (f.map Prod.snd).sum

/-- Sum of all counts stored across all tables of a sparse model. -/
def modelTotal (m : Model) : Nat := (m.map (fun e => freqTotal e.2)).sum

/-- Contents view used by the round-trip claim: the count recorded for byte
`b` under `context` (0 when the context is absent). -/
def modelCount (m : Model) (context b : Nat) : Nat :=
  match findCtx m context with
  | none => 0
  | some f => ((f.filter (fun e => e.1 == b)).map Prod.snd).sum

end Sparse

namespace DenseRs

/-- `Freq` from `main.rs`: `tokens: [u16; 256]`, as a 256-element list. -/
abbrev Freq := List Nat

/-- `Freq::new`: all 256 counters zero. -/
def Freq.new : Freq := List.replicate 256 0

/-- The decay loop of `Freq::push`: decrement every nonzero counter other
than position `x` (the first argument is the current index). -/
def decOther (x : Nat) : Nat → Freq → Freq
  | _, [] => []
  | i, v :: rest => (if i ≠ x ∧ 0 < v then v - 1 else v) :: decOther x (i + 1) rest

/-- `Freq::push` from `main.rs`: increment below `u16::MAX`, otherwise decay
every other nonzero counter and leave the saturated one unchanged. -/
def Freq.push (t : Freq) (x : Nat) : Freq :=
  if t.getD x 0 < 65535 then t.set x (t.getD x 0 + 1)
  else decOther x 0 t

/-- The scan loop of the dense `Freq::random`, in ascending byte order. -/
def denseScan : Freq → Nat → Nat → Nat → Option Nat
  | [], _, _, _ => none
  | p :: rest, i, psum, index =>
    if index < psum + p then some i else denseScan rest (i + 1) (psum + p) index

/-- The dense `Freq::random`: like the sparse one but scanning the 256
counters in ascending byte order. -/
def Freq.random (t : Freq) (state : Nat) : Option Nat × Nat :=
  if 0 < t.sum then
    (denseScan t 0 0 ((random_u32 state).1 % t.sum), (random_u32 state).2)
  else (none, state)

/-- `Model` from `main.rs`. -/
abbrev Model := List (Nat × Freq)

/-- `Model::push` from `main.rs` (same routing as the sparse one). -/
def Model.push : Model → Nat → Nat → Model
  | [], context, x => [(context, Freq.push Freq.new x)]
  | (c, f) :: rest, context, x =>
    if c = context then (c, Freq.push f x) :: rest
    else (c, f) :: Model.push rest context x

/-- `Model::random` from `main.rs`. -/
def Model.random (m : Model) (context state : Nat) : Option Nat × Nat :=
  match findCtx m context with
  | none => (none, state)
  | some f => Freq.random f state

/-- The training loop of `main.rs`: feed every slicer pair into
`Model::push`. -/
def train (bytes : List Nat) : Model :=
  (slicer bytes).foldl (fun m e => Model.push m e.1 e.2) []

/-- Sum of all counts stored across all tables of a dense model. -/
def modelTotal (m : Model) : Nat := (m.map (fun e => e.2.sum)).sum

end DenseRs

/-- The generation loop of the `gen` subcommand: sample, stop on `None`,
stop before appending when the buffer already holds `limit` bytes, otherwise
append and fold the byte into the context. -/
def genFrom (m : Sparse.Model) (limit : Nat) (context state : Nat)
    (buffer : List Nat) : List Nat :=
  match Sparse.Model.random m context state with
  | (none, _) => buffer
  | (some x, s1) =>
    if limit ≤ buffer.length then buffer
    else genFrom m limit (context_push context x) s1 (buffer ++ [x])
termination_by limit - buffer.length
decreasing_by simp; omega

/-- The whole generation run: context 0, empty buffer. -/
def generate (m : Sparse.Model) (state limit : Nat) : List Nat :=
  genFrom m limit 0 state []

/-- Modelled from the spec: "the big-endian packing of the 8 bytes
`s[i-8..i]` into a u64" — fold the bytes most-significant-first. -/
def bePack (l : List Nat) : Nat :=
  l.foldl (fun acc b => acc * 256 + b) 0

/-- A dense table that is zero except for value `k` at position `b`. -/
def setTable (b k : Nat) : DenseRs.Freq :=
  (List.replicate 256 0).set b k

/-- Every counter of a dense table is at most `u16::MAX`. -/
abbrev bounded (t : DenseRs.Freq) : Prop :=
  ∀ v ∈ t, v ≤ 65535

/-- Cumulative sum of the first `k` counts of a sparse table. -/
def cumS (f : Sparse.Freq) (k : Nat) : Nat :=
  ((f.take k).map Prod.snd).sum

/-- Cumulative sum of the first `k` counters of a dense table. -/
def cumD (t : DenseRs.Freq) (k : Nat) : Nat :=
  (t.take k).sum

/-- All counts stored anywhere in a sparse model are at most `n`. -/
def countsLe (m : Sparse.Model) (n : Nat) : Prop :=
  ∀ e ∈ m, ∀ p ∈ e.2, p.2 ≤ n

/-- Well-formed sparse model: record count in `u64` range, distinct contexts
in `u64` range, tables with at most 255 entries, token bytes in `u8` range,
counts in `u32` range. -/
abbrev Sparse.Model.wf (m : Sparse.Model) : Prop :=
  m.length < 18446744073709551616 ∧
  (m.map Prod.fst).Nodup ∧
  ∀ e ∈ m, e.1 < 18446744073709551616 ∧ e.2.length ≤ 255 ∧
    ∀ p ∈ e.2, p.1 < 256 ∧ p.2 < 4294967296

/-- The round-trip property of Schema A as the spec states it: deserializing
the serialized model succeeds and reproduces the per-context, per-byte
counts. -/
def roundTripContents (m : Sparse.Model) : Prop :=
  ∃ p, Sparse.Model.read_from (Sparse.Model.write_to m) = some p ∧
    ∀ c b, Sparse.modelCount p.1 c b = Sparse.modelCount m c b

/-- A sparse table in which all 256 byte values were observed once. -/
def freq256 : Sparse.Freq :=
  (List.range 256).map (fun b => (b, 1))

/-- A model with one trained context whose table has 256 distinct bytes. -/
def m256 : Sparse.Model :=
  [(0, freq256)]

/-! ## Helper lemmas: dense tables -/

lemma getD_replicate_zero (n i : Nat) : (List.replicate n (0 : Nat)).getD i 0 = 0 := by
  induction n generalizing i with
  | zero => simp
  | succ n ih =>
    cases i with
    | zero => simp [List.replicate_succ]
    | succ i =>
      rw [List.replicate_succ, List.getD_cons_succ]
      exact ih i

lemma length_setTable (b k : Nat) : (setTable b k).length = 256 := by
  rw [setTable, List.length_set, List.length_replicate]

lemma getD_setTable_self (b k : Nat) (hb : b < 256) :
    (setTable b k).getD b 0 = k := by
  have hlen : b < (List.replicate 256 (0 : Nat)).length := by
    rw [List.length_replicate]; exact hb
  rw [setTable, List.getD_eq_getElem?_getD, List.getElem?_set_self hlen]
  rfl

lemma getD_setTable_ne (b k i : Nat) (h : i ≠ b) :
    (setTable b k).getD i 0 = 0 := by
  rw [setTable, List.getD_eq_getElem?_getD, List.getElem?_set_ne (Ne.symm h),
    ← List.getD_eq_getElem?_getD]
  exact getD_replicate_zero 256 i

lemma sum_set_of_zeros : ∀ (l : List Nat) (i k : Nat), (∀ v ∈ l, v = 0) →
    i < l.length → (l.set i k).sum = k := by
  intro l
  induction l with
  | nil => intro i k _ h; simp at h
  | cons v rest ih =>
    intro i k hz hi
    cases i with
    | zero =>
      have hres : rest.sum = 0 :=
        List.sum_eq_zero (fun x hx => hz x (List.mem_cons_of_mem _ hx))
      show (k :: rest).sum = k
      rw [List.sum_cons, hres]
      omega
    | succ i =>
      have hv : v = 0 := hz v (List.mem_cons_self v rest)
      have hres := ih i k (fun x hx => hz x (List.mem_cons_of_mem _ hx)) (by simpa using hi)
      show (v :: rest.set i k).sum = k
      rw [List.sum_cons, hres, hv]
      omega

lemma sum_setTable (b k : Nat) (hb : b < 256) : (setTable b k).sum = k := by
  apply sum_set_of_zeros
  · intro v hv; exact List.eq_of_mem_replicate hv
  · rw [List.length_replicate]; exact hb

lemma decOther_eq_self : ∀ (l : List Nat) (i x : Nat),
    (∀ j, j < l.length → i + j ≠ x → l.getD j 0 = 0) → DenseRs.decOther x i l = l := by
  intro l
  induction l with
  | nil => intro i x _; rfl
  | cons v rest ih =>
    intro i x h
    have hrest : DenseRs.decOther x (i + 1) rest = rest := by
      apply ih
      intro j hj hne
      have := h (j + 1) (by simpa using Nat.succ_lt_succ hj) (by omega)
      simpa using this
    by_cases hix : i = x
    · subst hix
      simp [DenseRs.decOther, hrest]
    · have hv : v = 0 := by
        have := h 0 (by simp) (by omega)
        simpa using this
      simp [DenseRs.decOther, hv, hrest]

lemma push_setTable (b k : Nat) (hb : b < 256) (hk : k ≤ 65535) :
    DenseRs.Freq.push (setTable b k) b = setTable b (min (k + 1) 65535) := by
  rcases Nat.lt_or_ge k 65535 with hlt | hge
  · rw [show min (k + 1) 65535 = k + 1 by omega]
    unfold DenseRs.Freq.push
    rw [getD_setTable_self b k hb, if_pos hlt, setTable, setTable, List.set_set]
  · have hk' : k = 65535 := by omega
    subst hk'
    rw [show min (65535 + 1) 65535 = 65535 by omega]
    unfold DenseRs.Freq.push
    rw [getD_setTable_self b 65535 hb, if_neg (by omega)]
    apply decOther_eq_self
    intro j hj hne
    exact getD_setTable_ne b 65535 j (by omega)

lemma push_new (b : Nat) (_hb : b < 256) :
    DenseRs.Freq.push DenseRs.Freq.new b = setTable b 1 := by
  unfold DenseRs.Freq.push DenseRs.Freq.new
  rw [show (List.replicate 256 (0 : Nat)).getD b 0 = 0 from getD_replicate_zero 256 b,
    if_pos (by omega)]
  rfl

lemma fold_push_setTable : ∀ (n k b : Nat), b < 256 → k ≤ 65535 →
    List.foldl DenseRs.Freq.push (setTable b k) (List.replicate n b) =
      setTable b (min (k + n) 65535) := by
  intro n
  induction n with
  | zero =>
    intro k b _ hk
    show setTable b k = setTable b (min (k + 0) 65535)
    rw [Nat.add_zero, Nat.min_eq_left hk]
  | succ n ih =>
    intro k b hb hk
    rw [List.replicate_succ, List.foldl_cons, push_setTable b k hb hk,
      ih (min (k + 1) 65535) b hb (by omega)]
    congr 1
    omega

lemma fold_push_same_byte (n b : Nat) (hb : b < 256) :
    List.foldl DenseRs.Freq.push DenseRs.Freq.new (List.replicate (n + 1) b) =
      setTable b (min (n + 1) 65535) := by
  rw [List.replicate_succ, List.foldl_cons, push_new b hb,
    fold_push_setTable n 1 b hb (by omega)]
  congr 1
  omega

lemma decOther_le : ∀ (l : List Nat) (i x : Nat), (∀ v ∈ l, v ≤ 65535) →
    ∀ v ∈ DenseRs.decOther x i l, v ≤ 65535 := by
  intro l
  induction l with
  | nil => intro i x _ v hv; simp [DenseRs.decOther] at hv
  | cons w rest ih =>
    intro i x h v hv
    rw [show DenseRs.decOther x i (w :: rest) =
        (if i ≠ x ∧ 0 < w then w - 1 else w) :: DenseRs.decOther x (i + 1) rest from rfl] at hv
    rcases List.mem_cons.mp hv with hv | hv
    · have hw : w ≤ 65535 := h w (List.mem_cons_self w rest)
      subst hv
      split <;> omega
    · exact ih (i + 1) x (fun u hu => h u (List.mem_cons_of_mem _ hu)) v hv

lemma push_bounded (t : DenseRs.Freq) (x : Nat) (h : bounded t) :
    bounded (DenseRs.Freq.push t x) := by
  unfold DenseRs.Freq.push
  split
  · intro v hv
    rcases List.mem_or_eq_of_mem_set hv with hv | hv
    · exact h v hv
    · omega
  · exact decOther_le t 0 x h

lemma new_bounded : bounded DenseRs.Freq.new := by
  intro v hv
  rw [List.eq_of_mem_replicate hv]
  omega

lemma fold_push_bounded : ∀ (l : List Nat) (t : DenseRs.Freq), bounded t →
    bounded (List.foldl DenseRs.Freq.push t l) := by
  intro l
  induction l with
  | nil => intro t h; exact h
  | cons x rest ih =>
    intro t h
    rw [List.foldl_cons]
    exact ih (DenseRs.Freq.push t x) (push_bounded t x h)

/-! ## Claim theorems: C6, C7, C8, C9 -/

/-- C6: one LCG draw takes state `s` to `(s * 6364136223846793005 +
1442695040888963407) mod 2^64` and returns the upper 32 bits of the new
state.  The embedding `random_u32` performs the wrapping multiplication and
the wrapping addition as two separate `mod 2^64` steps, exactly as the two
`overflowing_*` calls in the source; this theorem shows the result equals
the spec's single-formula state transition.  Determinism across runs is
inherent: `random_u32` is a pure function of the state, so equal seeds give
equal draw sequences. -/
theorem lcg_step_formula (s : Nat) :
    random_u32 s =
      (((s * 6364136223846793005 + 1442695040888963407) % 18446744073709551616) >>> 32,
        (s * 6364136223846793005 + 1442695040888963407) % 18446744073709551616) := by
  have h : (s * 6364136223846793005 % 18446744073709551616 + 1442695040888963407) %
      18446744073709551616 =
      (s * 6364136223846793005 + 1442695040888963407) % 18446744073709551616 := by
    conv_rhs => rw [Nat.add_mod]
  rw [random_u32]
  rw [h]

/-- C7: a dense-table push keeps every counter at or below `u16::MAX =
65535` (incrementing only strictly below the maximum, otherwise decaying the
other nonzero counters), so every table reachable from the all-zero table by
pushes satisfies the invariant. -/
theorem dense_push_preserves_bound (t : DenseRs.Freq) (x : Nat) (l : List Nat)
    (h : bounded t) :
    bounded (DenseRs.Freq.push t x) ∧
      bounded (List.foldl DenseRs.Freq.push DenseRs.Freq.new l) := by
  exact ⟨push_bounded t x h, fold_push_bounded l DenseRs.Freq.new new_bounded⟩

/-- Witness for C7 at a concrete bounded table and push sequence. -/
theorem dense_push_preserves_bound_witness :
    bounded (DenseRs.Freq.push [0, 1, 65535] 1) ∧
      bounded (List.foldl DenseRs.Freq.push DenseRs.Freq.new [1, 2, 3]) :=
  dense_push_preserves_bound [0, 1, 65535] 1 [1, 2, 3] (by decide)

/-- C8: pushing the same byte 65536 times into an empty dense table leaves
that byte's counter at exactly 65535 and every other counter at 0. -/
theorem dense_saturation (b : Nat) (hb : b < 256) :
    (List.foldl DenseRs.Freq.push DenseRs.Freq.new (List.replicate 65536 b)).getD b 0 = 65535 ∧
      ∀ i, i < 256 → i ≠ b →
        (List.foldl DenseRs.Freq.push DenseRs.Freq.new (List.replicate 65536 b)).getD i 0 = 0 := by
  have h : List.foldl DenseRs.Freq.push DenseRs.Freq.new (List.replicate 65536 b) =
      setTable b 65535 := by
    rw [show (65536 : Nat) = 65535 + 1 from rfl, fold_push_same_byte 65535 b hb]
    congr 1
  rw [h]
  exact ⟨getD_setTable_self b 65535 hb, fun i _ hne => getD_setTable_ne b 65535 i hne⟩

/-- Witness for C8 at byte 97. -/
theorem dense_saturation_witness :
    (List.foldl DenseRs.Freq.push DenseRs.Freq.new (List.replicate 65536 97)).getD 97 0 = 65535 ∧
      ∀ i, i < 256 → i ≠ 97 →
        (List.foldl DenseRs.Freq.push DenseRs.Freq.new (List.replicate 65536 97)).getD i 0 = 0 :=
  dense_saturation 97 (by omega)

lemma sparse_freq_random_state (f : Sparse.Freq) (state : Nat) :
    (Sparse.Freq.random f state).2 = state ∨
      (Sparse.Freq.random f state).2 = (random_u32 state).2 := by
  by_cases h : 0 < (f.map Prod.snd).sum
  · right; rw [Sparse.Freq.random, if_pos h]
  · left; rw [Sparse.Freq.random, if_neg h]

lemma dense_freq_random_state (t : DenseRs.Freq) (state : Nat) :
    (DenseRs.Freq.random t state).2 = state ∨
      (DenseRs.Freq.random t state).2 = (random_u32 state).2 := by
  by_cases h : 0 < t.sum
  · right; rw [DenseRs.Freq.random, if_pos h]
  · left; rw [DenseRs.Freq.random, if_neg h]

/-- C9: sampling is read-only.  `Model::random` and `Freq::random` take the
model by shared reference and are embedded as pure functions of the model
and the RNG state, returning only the optional byte and the successor RNG
state — they produce no modified model or table.  The RNG is advanced by at
most one 32-bit draw per call: the returned state is either the input state
(unknown context, or empty table) or the state after exactly one
`random_u32` step. -/
theorem sampling_reads_only (m : Sparse.Model) (md : DenseRs.Model)
    (f : Sparse.Freq) (t : DenseRs.Freq) (context state : Nat) :
    ((Sparse.Model.random m context state).2 = state ∨
      (Sparse.Model.random m context state).2 = (random_u32 state).2) ∧
    ((DenseRs.Model.random md context state).2 = state ∨
      (DenseRs.Model.random md context state).2 = (random_u32 state).2) ∧
    ((Sparse.Freq.random f state).2 = state ∨
      (Sparse.Freq.random f state).2 = (random_u32 state).2) ∧
    ((DenseRs.Freq.random t state).2 = state ∨
      (DenseRs.Freq.random t state).2 = (random_u32 state).2) := by
  refine ⟨?_, ?_, sparse_freq_random_state f state, dense_freq_random_state t state⟩
  · rw [Sparse.Model.random]
    cases findCtx m context with
    | none => exact Or.inl rfl
    | some f => exact sparse_freq_random_state f state
  · rw [DenseRs.Model.random]
    cases findCtx md context with
    | none => exact Or.inl rfl
    | some f => exact dense_freq_random_state f state


/-! ## C5: the generation loop respects the limit -/

lemma genFrom_length_le : ∀ (k : Nat) (m : Sparse.Model) (N context state : Nat)
    (buffer : List Nat), N - buffer.length ≤ k → buffer.length ≤ N →
    (genFrom m N context state buffer).length ≤ N := by
  intro k
  induction k with
  | zero =>
    intro m N context state buffer hk hle
    rw [genFrom]
    cases hp : Sparse.Model.random m context state with
    | mk r s1 =>
      cases r with
      | none => exact hle
      | some x =>
        show (if N ≤ buffer.length then buffer else
          genFrom m N (context_push context x) s1 (buffer ++ [x])).length ≤ N
        rw [if_pos (by omega)]
        exact hle
  | succ k ih =>
    intro m N context state buffer hk hle
    rw [genFrom]
    cases hp : Sparse.Model.random m context state with
    | mk r s1 =>
      cases r with
      | none => exact hle
      | some x =>
        show (if N ≤ buffer.length then buffer else
          genFrom m N (context_push context x) s1 (buffer ++ [x])).length ≤ N
        by_cases hb : N ≤ buffer.length
        · rw [if_pos hb]
          exact hle
        · rw [if_neg hb]
          apply ih
          · rw [List.length_append]
            simp only [List.length_cons, List.length_nil]
            omega
          · rw [List.length_append]
            simp only [List.length_cons, List.length_nil]
            omega

/-- C5: for every model, RNG state and limit `N`, the generation loop
(sample, stop on `None`, stop before appending once the buffer holds `N`
bytes, otherwise append and fold the byte into the context) produces at
most `N` bytes. -/
theorem generation_respects_limit (m : Sparse.Model) (state limit : Nat) :
    (generate m state limit).length ≤ limit := by
  rw [generate]
  exact genFrom_length_le limit m limit 0 state [] (by simp) (by simp)

/-! ## Helper lemmas: sparse counting -/

lemma freq_push_total : ∀ (f : Sparse.Freq) (x n : Nat), (∀ p ∈ f, p.2 ≤ n) →
    n + 1 < 4294967296 →
    Sparse.freqTotal (Sparse.Freq.push f x) = Sparse.freqTotal f + 1 := by
  intro f
  induction f with
  | nil =>
    intro x n _ _
    simp [Sparse.Freq.push, Sparse.freqTotal]
  | cons e rest ih =>
    intro x n hc hn
    obtain ⟨y, p⟩ := e
    by_cases hxy : y = x
    · have hp : p ≤ n := hc (y, p) (List.mem_cons_self _ _)
      have hm : (p + 1) % 4294967296 = p + 1 := Nat.mod_eq_of_lt (by omega)
      rw [Sparse.Freq.push, if_pos hxy]
      simp [Sparse.freqTotal, hm]
      omega
    · rw [Sparse.Freq.push, if_neg hxy]
      have := ih x n (fun q hq => hc q (List.mem_cons_of_mem _ hq)) hn
      simp [Sparse.freqTotal] at this ⊢
      omega

lemma freq_push_counts_le : ∀ (f : Sparse.Freq) (x n : Nat), (∀ p ∈ f, p.2 ≤ n) →
    n + 1 < 4294967296 → ∀ p ∈ Sparse.Freq.push f x, p.2 ≤ n + 1 := by
  intro f
  induction f with
  | nil =>
    intro x n _ _ p hp
    rw [Sparse.Freq.push] at hp
    rcases List.mem_singleton.mp hp with rfl
    omega
  | cons e rest ih =>
    intro x n hc hn p hp
    obtain ⟨y, q⟩ := e
    by_cases hxy : y = x
    · rw [Sparse.Freq.push, if_pos hxy] at hp
      have hq : q ≤ n := hc (y, q) (List.mem_cons_self _ _)
      have hm : (q + 1) % 4294967296 = q + 1 := Nat.mod_eq_of_lt (by omega)
      rcases List.mem_cons.mp hp with rfl | hp
      · simp [hm]
        omega
      · have := hc p (List.mem_cons_of_mem _ hp)
        omega
    · rw [Sparse.Freq.push, if_neg hxy] at hp
      rcases List.mem_cons.mp hp with rfl | hp
      · have h0 : q ≤ n := hc (y, q) (List.mem_cons_self _ _)
        simp
        omega
      · exact ih x n (fun u hu => hc u (List.mem_cons_of_mem _ hu)) hn p hp

lemma freq_push_counts_ge : ∀ (f : Sparse.Freq) (x n : Nat), (∀ p ∈ f, 1 ≤ p.2) →
    (∀ p ∈ f, p.2 ≤ n) → n + 1 < 4294967296 →
    ∀ p ∈ Sparse.Freq.push f x, 1 ≤ p.2 := by
  intro f
  induction f with
  | nil =>
    intro x n _ _ _ p hp
    rw [Sparse.Freq.push] at hp
    rcases List.mem_singleton.mp hp with rfl
    omega
  | cons e rest ih =>
    intro x n hg hc hn p hp
    obtain ⟨y, q⟩ := e
    by_cases hxy : y = x
    · rw [Sparse.Freq.push, if_pos hxy] at hp
      have hq : q ≤ n := hc (y, q) (List.mem_cons_self _ _)
      have hm : (q + 1) % 4294967296 = q + 1 := Nat.mod_eq_of_lt (by omega)
      rcases List.mem_cons.mp hp with rfl | hp
      · simp [hm]
      · exact hg p (List.mem_cons_of_mem _ hp)
    · rw [Sparse.Freq.push, if_neg hxy] at hp
      rcases List.mem_cons.mp hp with rfl | hp
      · exact hg (y, q) (List.mem_cons_self _ _)
      · exact ih x n (fun u hu => hg u (List.mem_cons_of_mem _ hu))
          (fun u hu => hc u (List.mem_cons_of_mem _ hu)) hn p hp

lemma model_push_total : ∀ (m : Sparse.Model) (c x n : Nat), countsLe m n →
    n + 1 < 4294967296 →
    Sparse.modelTotal (Sparse.Model.push m c x) = Sparse.modelTotal m + 1 := by
  intro m
  induction m with
  | nil =>
    intro c x n _ _
    simp [Sparse.Model.push, Sparse.modelTotal, Sparse.freqTotal, Sparse.Freq.push,
      Sparse.Freq.new]
  | cons e rest ih =>
    intro c x n hc hn
    obtain ⟨c1, f⟩ := e
    by_cases hcc : c1 = c
    · rw [Sparse.Model.push, if_pos hcc]
      have hf := freq_push_total f x n (fun p hp => hc (c1, f) (List.mem_cons_self _ _) p hp) hn
      simp [Sparse.modelTotal] at hf ⊢
      omega
    · rw [Sparse.Model.push, if_neg hcc]
      have := ih c x n (fun e he p hp => hc e (List.mem_cons_of_mem _ he) p hp) hn
      simp [Sparse.modelTotal] at this ⊢
      omega

lemma model_push_counts_le : ∀ (m : Sparse.Model) (c x n : Nat), countsLe m n →
    n + 1 < 4294967296 → countsLe (Sparse.Model.push m c x) (n + 1) := by
  intro m
  induction m with
  | nil =>
    intro c x n _ _ e he p hp
    rw [Sparse.Model.push] at he
    rcases List.mem_singleton.mp he with rfl
    rw [show Sparse.Freq.push Sparse.Freq.new x = [(x, 1)] from rfl] at hp
    rcases List.mem_singleton.mp hp with rfl
    omega
  | cons e0 rest ih =>
    intro c x n hc hn e he p hp
    obtain ⟨c1, f⟩ := e0
    by_cases hcc : c1 = c
    · rw [Sparse.Model.push, if_pos hcc] at he
      rcases List.mem_cons.mp he with rfl | he
      · exact freq_push_counts_le f x n
          (fun q hq => hc (c1, f) (List.mem_cons_self _ _) q hq) hn p hp
      · have := hc e (List.mem_cons_of_mem _ he) p hp
        omega
    · rw [Sparse.Model.push, if_neg hcc] at he
      rcases List.mem_cons.mp he with rfl | he
      · have := hc (c1, f) (List.mem_cons_self _ _) p hp
        omega
      · exact ih c x n (fun u hu q hq => hc u (List.mem_cons_of_mem _ hu) q hq) hn e he p hp

lemma fold_push_total : ∀ (ps : List (Nat × Nat)) (m : Sparse.Model) (n : Nat),
    Sparse.modelTotal m = n → countsLe m n → n + ps.length < 4294967296 →
    Sparse.modelTotal (ps.foldl (fun mm e => Sparse.Model.push mm e.1 e.2) m) =
      n + ps.length := by
  intro ps
  induction ps with
  | nil =>
    intro m n ht _ _
    simpa using ht
  | cons e rest ih =>
    intro m n ht hc hn
    rw [List.foldl_cons]
    have hlen : (e :: rest).length = rest.length + 1 := by simp
    have h1 : Sparse.modelTotal (Sparse.Model.push m e.1 e.2) = n + 1 := by
      rw [model_push_total m e.1 e.2 n hc (by omega), ht]
    have h2 : countsLe (Sparse.Model.push m e.1 e.2) (n + 1) :=
      model_push_counts_le m e.1 e.2 n hc (by omega)
    have := ih (Sparse.Model.push m e.1 e.2) (n + 1) h1 h2 (by omega)
    rw [this]
    simp
    omega

lemma slicerFrom_length : ∀ (s : List Nat) (w : Nat), (slicerFrom w s).length = s.length := by
  intro s
  induction s with
  | nil => intro w; rfl
  | cons b rest ih =>
    intro w
    rw [slicerFrom, List.length_cons, List.length_cons, ih]

/-! ## C2 (amended): sparse training records one count per input byte -/

/-- C2, amended to what the code satisfies: for the sparse variant, training
on a byte sequence of fewer than 2^32 bytes (so that no `u32` counter wraps)
stores a total count over all tables equal to the input length.  The dense
variant does not satisfy the claim: its counters saturate at 65535, see the
counterexample. -/
theorem sparse_training_total (s : List Nat) (h : s.length < 4294967296) :
    Sparse.modelTotal (Sparse.train s) = s.length := by
  rw [Sparse.train, slicer]
  have hlen : (slicerFrom 0 s).length = s.length := slicerFrom_length s 0
  have := fold_push_total (slicerFrom 0 s) [] 0 rfl
    (fun e he => absurd he (List.not_mem_nil e)) (by omega)
  rw [this, hlen]
  omega

/-- Witness for C2's amended theorem on a concrete 3-byte input. -/
theorem sparse_training_total_witness :
    Sparse.modelTotal (Sparse.train [1, 2, 2]) = [1, 2, 2].length :=
  sparse_training_total [1, 2, 2] (by norm_num)

/-! ## C10: sparse table key distinctness and count positivity -/

lemma push_keys (f : Sparse.Freq) (x : Nat) :
    ((Sparse.Freq.push f x).map Prod.fst = f.map Prod.fst ∧ x ∈ f.map Prod.fst) ∨
    ((Sparse.Freq.push f x).map Prod.fst = f.map Prod.fst ++ [x] ∧
      x ∉ f.map Prod.fst) := by
  induction f with
  | nil =>
    right
    constructor
    · rfl
    · simp
  | cons e rest ih =>
    obtain ⟨y, p⟩ := e
    by_cases hxy : y = x
    · left
      rw [Sparse.Freq.push, if_pos hxy]
      constructor
      · rfl
      · simp [hxy]
    · rw [Sparse.Freq.push, if_neg hxy]
      rcases ih with ⟨heq, hmem⟩ | ⟨heq, hmem⟩
      · left
        constructor
        · simp [heq]
        · simp [hmem]
      · right
        constructor
        · simp [heq]
        · rw [List.map_cons]
          intro hx
          rcases List.mem_cons.mp hx with rfl | hx
          · exact hxy rfl
          · exact hmem hx

lemma push_nodup (f : Sparse.Freq) (x : Nat) (h : (f.map Prod.fst).Nodup) :
    ((Sparse.Freq.push f x).map Prod.fst).Nodup := by
  rcases push_keys f x with ⟨heq, _⟩ | ⟨heq, hmem⟩
  · rw [heq]; exact h
  · rw [heq]
    rw [show f.map Prod.fst ++ [x] = (f.map Prod.fst).concat x from (List.concat_eq_append _ _).symm]
    exact List.Nodup.concat hmem h

lemma fold_freq_nodup : ∀ (l : List Nat) (f : Sparse.Freq),
    (f.map Prod.fst).Nodup → ((l.foldl Sparse.Freq.push f).map Prod.fst).Nodup := by
  intro l
  induction l with
  | nil => intro f h; exact h
  | cons x rest ih =>
    intro f h
    rw [List.foldl_cons]
    exact ih (Sparse.Freq.push f x) (push_nodup f x h)

lemma fold_freq_counts : ∀ (l : List Nat) (f : Sparse.Freq) (n : Nat),
    (∀ p ∈ f, 1 ≤ p.2) → (∀ p ∈ f, p.2 ≤ n) → n + l.length < 4294967296 →
    (∀ p ∈ l.foldl Sparse.Freq.push f, 1 ≤ p.2) ∧
      (∀ p ∈ l.foldl Sparse.Freq.push f, p.2 ≤ n + l.length) := by
  intro l
  induction l with
  | nil =>
    intro f n hg hc _
    constructor
    · exact hg
    · simpa using hc
  | cons x rest ih =>
    intro f n hg hc hn
    rw [List.foldl_cons]
    have hg1 := freq_push_counts_ge f x n hg hc (by simp at hn; omega)
    have hc1 := freq_push_counts_le f x n hc (by simp at hn; omega)
    have := ih (Sparse.Freq.push f x) (n + 1) hg1 hc1 (by simp at hn ⊢; omega)
    constructor
    · exact this.1
    · intro p hp
      have := this.2 p hp
      simp
      omega

/-- C10, amended to what the code satisfies: after any sequence of pushes
into an initially empty sparse table the stored byte values are pairwise
distinct (push increments the first matching entry and appends a fresh
`(x, 1)` pair only when `x` is absent); and as long as fewer than 2^32
pushes have been applied (so that no wrapping `u32` increment can take a
counter back to 0), every stored count is at least 1. -/
theorem sparse_table_invariant (l : List Nat) :
    ((l.foldl Sparse.Freq.push Sparse.Freq.new).map Prod.fst).Nodup ∧
      (l.length < 4294967296 → ∀ p ∈ l.foldl Sparse.Freq.push Sparse.Freq.new, 1 ≤ p.2) := by
  constructor
  · exact fold_freq_nodup l Sparse.Freq.new (by simp [Sparse.Freq.new])
  · intro hlen
    exact (fold_freq_counts l Sparse.Freq.new 0 (by simp [Sparse.Freq.new])
      (by simp [Sparse.Freq.new]) (by omega)).1

/-- Witness for C10's amended theorem at a concrete push sequence. -/
theorem sparse_table_invariant_witness :
    (([5, 5, 7].foldl Sparse.Freq.push Sparse.Freq.new).map Prod.fst).Nodup ∧
      (([5, 5, 7] : List Nat).length < 4294967296 →
        ∀ p ∈ [5, 5, 7].foldl Sparse.Freq.push Sparse.Freq.new, 1 ≤ p.2) :=
  sparse_table_invariant [5, 5, 7]

lemma fold_push_same_sparse : ∀ (n b k : Nat), k < 4294967296 →
    List.foldl Sparse.Freq.push [(b, k)] (List.replicate n b) =
      [(b, (k + n) % 4294967296)] := by
  intro n
  induction n with
  | zero =>
    intro b k hk
    simp [Nat.mod_eq_of_lt hk]
  | succ n ih =>
    intro b k hk
    rw [List.replicate_succ, List.foldl_cons]
    have hstep : Sparse.Freq.push [(b, k)] b = [(b, (k + 1) % 4294967296)] := by
      rw [show Sparse.Freq.push [(b, k)] b =
        if b = b then [(b, (k + 1) % 4294967296)] else [(b, k), (b, 1)] from rfl, if_pos rfl]
    rw [hstep, ih b ((k + 1) % 4294967296) (Nat.mod_lt _ (by omega))]
    have harith : ((k + 1) % 4294967296 + n) % 4294967296 =
        (k + (n + 1)) % 4294967296 := by omega
    rw [harith]

/-- C10, counterexample to the claim as stated: `u32` counts wrap, so after
exactly 2^32 pushes of byte 97 into an empty sparse table the single stored
pair has count 0 — "every stored count is at least 1" fails. -/
theorem sparse_count_wrap_counterexample :
    List.foldl Sparse.Freq.push Sparse.Freq.new (List.replicate 4294967296 97) = [(97, 0)] ∧
      ¬ (∀ p ∈ List.foldl Sparse.Freq.push Sparse.Freq.new (List.replicate 4294967296 97),
          1 ≤ p.2) := by
  have h : List.foldl Sparse.Freq.push Sparse.Freq.new (List.replicate 4294967296 97) =
      [(97, 0)] := by
    rw [show (4294967296 : Nat) = 4294967295 + 1 from rfl, List.replicate_succ,
      List.foldl_cons, show Sparse.Freq.push Sparse.Freq.new 97 = [(97, 1)] from rfl,
      fold_push_same_sparse 4294967295 97 1 (by omega)]
  refine ⟨h, ?_⟩
  intro hall
  have := hall (97, 0) (by rw [h]; exact List.mem_singleton.mpr rfl)
  simp at this

/-! ## C2 counterexample machinery: dense saturation loses counts -/

lemma slicerFrom_append : ∀ (l1 l2 : List Nat) (w : Nat),
    slicerFrom w (l1 ++ l2) =
      slicerFrom w l1 ++ slicerFrom (List.foldl context_push w l1) l2 := by
  intro l1
  induction l1 with
  | nil => intro l2 w; rfl
  | cons b rest ih =>
    intro l2 w
    rw [List.cons_append, slicerFrom, slicerFrom, ih l2 (context_push w b),
      List.foldl_cons]
    rfl

lemma dense_push_new_ctx : ∀ (m : DenseRs.Model) (c b : Nat), findCtx m c = none →
    DenseRs.Model.push m c b = m ++ [(c, DenseRs.Freq.push DenseRs.Freq.new b)] := by
  intro m
  induction m with
  | nil => intro c b _; rfl
  | cons e rest ih =>
    intro c b h
    obtain ⟨c1, f⟩ := e
    rw [show findCtx ((c1, f) :: rest) c = if c1 = c then some f else findCtx rest c
      from rfl] at h
    by_cases hcc : c1 = c
    · rw [if_pos hcc] at h
      exact absurd h (by simp)
    · rw [if_neg hcc] at h
      rw [show DenseRs.Model.push ((c1, f) :: rest) c b =
        if c1 = c then (c1, DenseRs.Freq.push f b) :: rest
        else (c1, f) :: DenseRs.Model.push rest c b from rfl, if_neg hcc, ih c b h,
        List.cons_append]

lemma dense_push_append : ∀ (m : DenseRs.Model) (c : Nat) (t : DenseRs.Freq) (b : Nat),
    findCtx m c = none →
    DenseRs.Model.push (m ++ [(c, t)]) c b = m ++ [(c, DenseRs.Freq.push t b)] := by
  intro m
  induction m with
  | nil =>
    intro c t b _
    rw [List.nil_append, show DenseRs.Model.push [(c, t)] c b =
      if c = c then (c, DenseRs.Freq.push t b) :: [] else
        (c, t) :: DenseRs.Model.push [] c b from rfl, if_pos rfl, List.nil_append]
  | cons e rest ih =>
    intro c t b h
    obtain ⟨c1, f⟩ := e
    rw [show findCtx ((c1, f) :: rest) c = if c1 = c then some f else findCtx rest c
      from rfl] at h
    by_cases hcc : c1 = c
    · rw [if_pos hcc] at h
      exact absurd h (by simp)
    · rw [if_neg hcc] at h
      rw [List.cons_append, show DenseRs.Model.push ((c1, f) :: (rest ++ [(c, t)])) c b =
        if c1 = c then (c1, DenseRs.Freq.push f b) :: (rest ++ [(c, t)])
        else (c1, f) :: DenseRs.Model.push (rest ++ [(c, t)]) c b from rfl, if_neg hcc,
        ih c t b h, List.cons_append]

lemma dense_fold_pair : ∀ (n : Nat) (m : DenseRs.Model) (c b k : Nat), b < 256 →
    k ≤ 65535 → findCtx m c = none →
    List.foldl (fun mm e => DenseRs.Model.push mm e.1 e.2)
      (m ++ [(c, setTable b k)]) (List.replicate n (c, b)) =
    m ++ [(c, setTable b (min (k + n) 65535))] := by
  intro n
  induction n with
  | zero =>
    intro m c b k hb hk _
    rw [List.replicate, List.foldl_nil, Nat.add_zero, Nat.min_eq_left hk]
  | succ n ih =>
    intro m c b k hb hk hfind
    rw [List.replicate_succ, List.foldl_cons]
    have hstep : DenseRs.Model.push (m ++ [(c, setTable b k)]) (c, b).1 (c, b).2 =
        m ++ [(c, setTable b (min (k + 1) 65535))] := by
      show DenseRs.Model.push (m ++ [(c, setTable b k)]) c b =
        m ++ [(c, setTable b (min (k + 1) 65535))]
      rw [dense_push_append m c (setTable b k) b hfind, push_setTable b k hb hk]
    rw [hstep, ih m c b (min (k + 1) 65535) hb (by omega) hfind]
    have harith : min (min (k + 1) 65535 + n) 65535 = min (k + (n + 1)) 65535 := by omega
    rw [harith]

lemma dense_modelTotal_append (m : DenseRs.Model) (c : Nat) (t : DenseRs.Freq) :
    DenseRs.modelTotal (m ++ [(c, t)]) = DenseRs.modelTotal m + t.sum := by
  have h1 : ([(c, t)].map (fun e => e.2.sum)).sum = t.sum := by
    rw [List.map_cons, List.map_nil, List.sum_cons, List.sum_nil, Nat.add_zero]
  unfold DenseRs.modelTotal
  rw [List.map_append, List.sum_append, h1]

/-- C2, counterexample to the claim as stated for the dense variant: 65544
copies of byte 97 route 65536 observations to the context made of eight
97 bytes; its dense counter saturates at 65535, so the total over all
tables is 65543, one less than the input length. -/
theorem dense_training_total_counterexample :
    DenseRs.modelTotal (DenseRs.train (List.replicate 65544 97)) = 65543 ∧
      (List.replicate (65544 : Nat) (97 : Nat)).length = 65544 := by
  constructor
  · rw [DenseRs.train, slicer, show (65544 : Nat) = 8 + 65536 from rfl, List.replicate_add,
      slicerFrom_append, List.foldl_append]
    have hW : List.foldl context_push 0 (List.replicate 8 (97 : Nat)) =
        7016996765293437281 := by decide
    rw [hW]
    have hfix : ∀ n : Nat, slicerFrom 7016996765293437281 (List.replicate n 97) =
        List.replicate n ((7016996765293437281 : Nat), (97 : Nat)) := by
      intro n
      induction n with
      | zero => rfl
      | succ n ih =>
        rw [List.replicate_succ, slicerFrom,
          show context_push 7016996765293437281 97 = 7016996765293437281 from by decide,
          ih, List.replicate_succ]
    rw [hfix 65536]
    have hfind : findCtx (List.foldl (fun mm e => DenseRs.Model.push mm e.1 e.2) []
        (slicerFrom 0 (List.replicate 8 97))) (7016996765293437281 : Nat) = none := by
      decide
    have hrepl : List.replicate 65536 ((7016996765293437281 : Nat), (97 : Nat)) =
        (7016996765293437281, 97) :: List.replicate 65535 (7016996765293437281, 97) := by
      rw [show (65536 : Nat) = 65535 + 1 from rfl, List.replicate_succ]
    rw [hrepl, List.foldl_cons]
    have hstep : DenseRs.Model.push
        (List.foldl (fun mm e => DenseRs.Model.push mm e.1 e.2) []
          (slicerFrom 0 (List.replicate 8 97)))
        (((7016996765293437281 : Nat), (97 : Nat)).1)
        (((7016996765293437281 : Nat), (97 : Nat)).2) =
        List.foldl (fun mm e => DenseRs.Model.push mm e.1 e.2) []
          (slicerFrom 0 (List.replicate 8 97)) ++ [(7016996765293437281, setTable 97 1)] := by
      show DenseRs.Model.push _ 7016996765293437281 97 = _
      rw [dense_push_new_ctx _ _ _ hfind, push_new 97 (by omega)]
    rw [hstep, dense_fold_pair 65535 _ _ 97 1 (by omega) (by omega) hfind,
      dense_modelTotal_append, sum_setTable 97 _ (by omega)]
    rw [show DenseRs.modelTotal (List.foldl (fun mm e => DenseRs.Model.push mm e.1 e.2) []
        (slicerFrom 0 (List.replicate 8 97))) = 8 from by decide]
    omega
  · rw [List.length_replicate]

/-! ## C3: weighted sampling characterization -/

lemma cumS_cons_succ (e : Nat × Nat) (rest : Sparse.Freq) (k : Nat) :
    cumS (e :: rest) (k + 1) = e.2 + cumS rest k := by
  rw [cumS, cumS, List.take_succ_cons, List.map_cons, List.sum_cons]

lemma cumD_cons_succ (v : Nat) (rest : List Nat) (k : Nat) :
    cumD (v :: rest) (k + 1) = v + cumD rest k := by
  rw [cumD, cumD, List.take_succ_cons, List.sum_cons]

lemma scanTok_found : ∀ (f : Sparse.Freq) (psum index : Nat), psum ≤ index →
    index < psum + (f.map Prod.snd).sum →
    ∃ j, j < f.length ∧ Sparse.scanTok f psum index = some (f.getD j (0, 0)).1 ∧
      index < psum + cumS f (j + 1) ∧ ∀ i, i < j → psum + cumS f (i + 1) ≤ index := by
  intro f
  induction f with
  | nil =>
    intro psum index hps hlt
    simp at hlt
    omega
  | cons e rest ih =>
    intro psum index hps hlt
    obtain ⟨y, p⟩ := e
    by_cases hcase : index < psum + p
    · refine ⟨0, by simp, ?_, ?_, ?_⟩
      · rw [Sparse.scanTok, if_pos hcase]
        rfl
      · rw [cumS_cons_succ]
        rw [cumS]
        simp
        omega
      · intro i hi
        omega
    · have hsum : index < (psum + p) + (rest.map Prod.snd).sum := by
        rw [List.map_cons, List.sum_cons] at hlt
        omega
      obtain ⟨j, hj, hscan, hcum, hmin⟩ := ih (psum + p) index (by omega) hsum
      refine ⟨j + 1, by simpa using Nat.succ_lt_succ hj, ?_, ?_, ?_⟩
      · rw [Sparse.scanTok, if_neg hcase, hscan, List.getD_cons_succ]
      · rw [cumS_cons_succ]
        omega
      · intro i hi
        cases i with
        | zero =>
          rw [cumS_cons_succ, cumS]
          simp
          omega
        | succ i =>
          rw [cumS_cons_succ]
          have := hmin i (by omega)
          omega

lemma denseScan_found : ∀ (t : List Nat) (i0 psum index : Nat), psum ≤ index →
    index < psum + t.sum →
    ∃ j, j < t.length ∧ DenseRs.denseScan t i0 psum index = some (i0 + j) ∧
      index < psum + cumD t (j + 1) ∧ ∀ i, i < j → psum + cumD t (i + 1) ≤ index := by
  intro t
  induction t with
  | nil =>
    intro i0 psum index hps hlt
    simp at hlt
    omega
  | cons v rest ih =>
    intro i0 psum index hps hlt
    by_cases hcase : index < psum + v
    · refine ⟨0, by simp, ?_, ?_, ?_⟩
      · rw [DenseRs.denseScan, if_pos hcase, Nat.add_zero]
      · rw [cumD_cons_succ, cumD]
        simp
        omega
      · intro i hi
        omega
    · have hsum : index < (psum + v) + rest.sum := by
        rw [List.sum_cons] at hlt
        omega
      obtain ⟨j, hj, hscan, hcum, hmin⟩ := ih (i0 + 1) (psum + v) index (by omega) hsum
      refine ⟨j + 1, by simpa using Nat.succ_lt_succ hj, ?_, ?_, ?_⟩
      · rw [DenseRs.denseScan, if_neg hcase, hscan]
        congr 1
        omega
      · rw [cumD_cons_succ]
        omega
      · intro i hi
        cases i with
        | zero =>
          rw [cumD_cons_succ, cumD]
          simp
          omega
        | succ i =>
          rw [cumD_cons_succ]
          have := hmin i (by omega)
          omega

/-- C3: for every frequency table of either variant and every RNG state,
`random` returns `None` exactly when the total count is 0; otherwise, with
`index = draw % total` for the one 32-bit draw taken, it returns the first
entry — in insertion order for the sparse table, in ascending byte order for
the dense table — whose cumulative count strictly exceeds `index`. -/
theorem sampling_characterization (f : Sparse.Freq) (t : DenseRs.Freq) (state : Nat) :
    ((Sparse.Freq.random f state).1 = none ↔ (f.map Prod.snd).sum = 0) ∧
    (0 < (f.map Prod.snd).sum →
      ∃ j, j < f.length ∧
        (Sparse.Freq.random f state).1 = some (f.getD j (0, 0)).1 ∧
        (random_u32 state).1 % (f.map Prod.snd).sum < cumS f (j + 1) ∧
        ∀ i, i < j → cumS f (i + 1) ≤ (random_u32 state).1 % (f.map Prod.snd).sum) ∧
    ((DenseRs.Freq.random t state).1 = none ↔ t.sum = 0) ∧
    (0 < t.sum →
      ∃ j, j < t.length ∧ (DenseRs.Freq.random t state).1 = some j ∧
        (random_u32 state).1 % t.sum < cumD t (j + 1) ∧
        ∀ i, i < j → cumD t (i + 1) ≤ (random_u32 state).1 % t.sum) := by
  have hsparse : 0 < (f.map Prod.snd).sum →
      ∃ j, j < f.length ∧
        (Sparse.Freq.random f state).1 = some (f.getD j (0, 0)).1 ∧
        (random_u32 state).1 % (f.map Prod.snd).sum < cumS f (j + 1) ∧
        ∀ i, i < j → cumS f (i + 1) ≤ (random_u32 state).1 % (f.map Prod.snd).sum := by
    intro hpos
    have hidx : (random_u32 state).1 % (f.map Prod.snd).sum < (f.map Prod.snd).sum :=
      Nat.mod_lt _ hpos
    obtain ⟨j, hj, hscan, hcum, hmin⟩ :=
      scanTok_found f 0 ((random_u32 state).1 % (f.map Prod.snd).sum) (Nat.zero_le _)
        (by omega)
    refine ⟨j, hj, ?_, by omega, fun i hi => by have := hmin i hi; omega⟩
    rw [Sparse.Freq.random, if_pos hpos]
    exact hscan
  have hdense : 0 < t.sum →
      ∃ j, j < t.length ∧ (DenseRs.Freq.random t state).1 = some j ∧
        (random_u32 state).1 % t.sum < cumD t (j + 1) ∧
        ∀ i, i < j → cumD t (i + 1) ≤ (random_u32 state).1 % t.sum := by
    intro hpos
    have hidx : (random_u32 state).1 % t.sum < t.sum := Nat.mod_lt _ hpos
    obtain ⟨j, hj, hscan, hcum, hmin⟩ :=
      denseScan_found t 0 0 ((random_u32 state).1 % t.sum) (Nat.zero_le _) (by omega)
    refine ⟨j, hj, ?_, by omega, fun i hi => by have := hmin i hi; omega⟩
    rw [DenseRs.Freq.random, if_pos hpos, hscan]
    show some (0 + j) = some j
    rw [Nat.zero_add]
  refine ⟨?_, hsparse, ?_, hdense⟩
  · constructor
    · intro hnone
      by_contra hne
      obtain ⟨j, _, hsome, _, _⟩ := hsparse (Nat.pos_of_ne_zero hne)
      rw [hnone] at hsome
      exact Option.noConfusion hsome
    · intro hzero
      rw [Sparse.Freq.random, if_neg (by omega)]
  · constructor
    · intro hnone
      by_contra hne
      obtain ⟨j, _, hsome, _, _⟩ := hdense (Nat.pos_of_ne_zero hne)
      rw [hnone] at hsome
      exact Option.noConfusion hsome
    · intro hzero
      rw [DenseRs.Freq.random, if_neg (by omega)]

/-! ## C4: slicer emits one pair per byte with the 8-byte window context -/

lemma slicerFrom_map_snd : ∀ (s : List Nat) (w : Nat),
    (slicerFrom w s).map Prod.snd = s := by
  intro s
  induction s with
  | nil => intro w; rfl
  | cons b rest ih =>
    intro w
    rw [slicerFrom, List.map_cons, ih]

lemma slicerFrom_getD : ∀ (s : List Nat) (w i : Nat), i < s.length →
    (slicerFrom w s).getD i (0, 0) =
      (List.foldl context_push w (s.take i), s.getD i 0) := by
  intro s
  induction s with
  | nil => intro w i h; simp at h
  | cons b rest ih =>
    intro w i h
    cases i with
    | zero =>
      rw [slicerFrom, List.getD_cons_zero, List.take_zero, List.foldl_nil,
        List.getD_cons_zero]
    | succ i =>
      rw [slicerFrom, List.getD_cons_succ, ih (context_push w b) i (by simpa using h),
        List.take_succ_cons, List.foldl_cons, List.getD_cons_succ]

lemma context_push_eq (w b : Nat) (hb : b < 256) :
    context_push w b = (w * 256 + b) % 18446744073709551616 := by
  rw [context_push, Nat.mod_eq_of_lt hb, Nat.shiftLeft_eq,
    show (2 : Nat) ^ 8 = 256 by norm_num]
  have hdvd : (256 : Nat) ∣ (w * 256) % 18446744073709551616 := by
    rw [Nat.dvd_mod_iff (by norm_num)]
    exact dvd_mul_left 256 w
  obtain ⟨c, hc⟩ := hdvd
  have hor : (256 : Nat) * c ||| b = 256 * c + b := by
    have h2 := Nat.mul_add_lt_is_or (show b < 2 ^ 8 by simpa using hb) c
    rw [show (2 : Nat) ^ 8 = 256 by norm_num] at h2
    exact h2.symm
  rw [hc, hor]
  omega

lemma foldl_context_push_mod : ∀ (l : List Nat) (w : Nat), (∀ b ∈ l, b < 256) →
    List.foldl context_push (w % 18446744073709551616) l =
      (List.foldl (fun a b => a * 256 + b) w l) % 18446744073709551616 := by
  intro l
  induction l with
  | nil => intro w _; rfl
  | cons b rest ih =>
    intro w hb
    rw [List.foldl_cons, List.foldl_cons]
    have hb0 : b < 256 := hb b (List.mem_cons_self _ _)
    have hstep : context_push (w % 18446744073709551616) b =
        (w * 256 + b) % 18446744073709551616 := by
      rw [context_push_eq _ b hb0]
      omega
    rw [hstep]
    exact ih (w * 256 + b) (fun u hu => hb u (List.mem_cons_of_mem _ hu))

lemma foldl_be_shift : ∀ (l : List Nat) (a : Nat),
    List.foldl (fun acc b => acc * 256 + b) a l =
      a * 256 ^ l.length + List.foldl (fun acc b => acc * 256 + b) 0 l := by
  intro l
  induction l with
  | nil => intro a; simp
  | cons b rest ih =>
    intro a
    rw [List.foldl_cons, List.foldl_cons, ih (a * 256 + b), ih (0 * 256 + b),
      List.length_cons, pow_succ]
    ring

lemma foldl_be_lt : ∀ (l : List Nat) (a : Nat), (∀ b ∈ l, b < 256) →
    List.foldl (fun acc b => acc * 256 + b) a l < (a + 1) * 256 ^ l.length := by
  intro l
  induction l with
  | nil => intro a _; simp
  | cons b rest ih =>
    intro a hb
    rw [List.foldl_cons, List.length_cons, pow_succ]
    have hb0 : b < 256 := hb b (List.mem_cons_self _ _)
    have h1 := ih (a * 256 + b) (fun u hu => hb u (List.mem_cons_of_mem _ hu))
    have h2 : (a * 256 + b + 1) * 256 ^ rest.length ≤ ((a + 1) * 256) * 256 ^ rest.length := by
      apply Nat.mul_le_mul_right
      omega
    calc List.foldl (fun acc b => acc * 256 + b) (a * 256 + b) rest
        < (a * 256 + b + 1) * 256 ^ rest.length := h1
      _ ≤ ((a + 1) * 256) * 256 ^ rest.length := h2
      _ = (a + 1) * (256 ^ rest.length * 256) := by ring

lemma take_split : ∀ (m n : Nat) (l : List Nat),
    l.take (m + n) = l.take m ++ (l.drop m).take n := by
  intro m
  induction m with
  | zero => intro n l; simp
  | succ m ih =>
    intro n l
    cases l with
    | nil => simp
    | cons a rest =>
      rw [List.drop_succ_cons, show m + 1 + n = (m + n) + 1 by omega,
        List.take_succ_cons, ih n rest, List.take_succ_cons, List.cons_append]

lemma window_is_bePack (s : List Nat) (i : Nat) (hb : ∀ b ∈ s, b < 256)
    (h8 : 8 ≤ i) (hlen : i ≤ s.length) :
    List.foldl context_push 0 (s.take i) =
      bePack (List.take 8 (List.drop (i - 8) s)) := by
  have hsplit : s.take i = s.take (i - 8) ++ (s.drop (i - 8)).take 8 := by
    rw [← take_split (i - 8) 8 s, show i - 8 + 8 = i by omega]
  have hb1 : ∀ b ∈ s.take i, b < 256 := fun b hbm => hb b (List.mem_of_mem_take hbm)
  have hlen8 : ((s.drop (i - 8)).take 8).length = 8 := by
    rw [List.length_take, List.length_drop]
    omega
  have hfold : List.foldl context_push 0 (s.take i) =
      (List.foldl (fun a b => a * 256 + b) 0 (s.take i)) % 18446744073709551616 := by
    rw [show (0 : Nat) = 0 % 18446744073709551616 from rfl]
    exact foldl_context_push_mod (s.take i) 0 hb1
  rw [hfold, hsplit, List.foldl_append, foldl_be_shift]
  have hlt : List.foldl (fun acc b => acc * 256 + b) 0 ((s.drop (i - 8)).take 8) <
      18446744073709551616 := by
    have := foldl_be_lt ((s.drop (i - 8)).take 8) 0 (by
      intro b hbm
      exact hb b (List.drop_subset _ _ (List.mem_of_mem_take hbm)))
    rw [hlen8] at this
    norm_num at this
    exact this
  rw [hlen8, bePack]
  rw [show (256 : Nat) ^ 8 = 18446744073709551616 by norm_num]
  omega

/-- C4: the slicer emits exactly `length s` pairs whose second components
are the input bytes in order; the context paired with the first byte is 0,
and for every position `i ≥ 8` the context paired with `s[i]` is the
big-endian packing of the 8 preceding bytes `s[i-8..i]` (older bytes having
been discarded by the 64-bit truncation of the shift-or update). -/
theorem slicer_window_correct (s : List Nat) (hb : ∀ b ∈ s, b < 256) :
    (slicer s).length = s.length ∧
    (slicer s).map Prod.snd = s ∧
    (0 < s.length → (slicer s).getD 0 (0, 0) = (0, s.getD 0 0)) ∧
    ∀ i, 8 ≤ i → i < s.length →
      ((slicer s).getD i (0, 0)).1 = bePack (List.take 8 (List.drop (i - 8) s)) := by
  refine ⟨slicerFrom_length s 0, slicerFrom_map_snd s 0, ?_, ?_⟩
  · intro hpos
    rw [slicer, slicerFrom_getD s 0 0 hpos, List.take_zero, List.foldl_nil]
  · intro i h8 hlen
    rw [slicer, slicerFrom_getD s 0 i hlen]
    exact window_is_bePack s i hb h8 (by omega)

/-- Witness for C4 on the concrete 10-byte input 1..10. -/
theorem slicer_window_correct_witness :
    (slicer [1, 2, 3, 4, 5, 6, 7, 8, 9, 10]).length =
        ([1, 2, 3, 4, 5, 6, 7, 8, 9, 10] : List Nat).length ∧
      (slicer [1, 2, 3, 4, 5, 6, 7, 8, 9, 10]).map Prod.snd =
        [1, 2, 3, 4, 5, 6, 7, 8, 9, 10] ∧
      (0 < ([1, 2, 3, 4, 5, 6, 7, 8, 9, 10] : List Nat).length →
        (slicer [1, 2, 3, 4, 5, 6, 7, 8, 9, 10]).getD 0 (0, 0) =
          (0, ([1, 2, 3, 4, 5, 6, 7, 8, 9, 10] : List Nat).getD 0 0)) ∧
      ∀ i, 8 ≤ i → i < ([1, 2, 3, 4, 5, 6, 7, 8, 9, 10] : List Nat).length →
        ((slicer [1, 2, 3, 4, 5, 6, 7, 8, 9, 10]).getD i (0, 0)).1 =
          bePack (List.take 8 (List.drop (i - 8) [1, 2, 3, 4, 5, 6, 7, 8, 9, 10])) :=
  slicer_window_correct [1, 2, 3, 4, 5, 6, 7, 8, 9, 10] (by decide)

/-! ## C1: Schema A round trip -/

lemma read_u32_u32le (n : Nat) (r : List Nat) :
    read_u32 (u32le n ++ r) = some (n % 4294967296, r) := by
  rw [u32le]
  simp only [List.cons_append, List.nil_append]
  rw [read_u32]
  simp only [Option.some.injEq, Prod.mk.injEq]
  exact ⟨by omega, trivial⟩

lemma read_u64_u64le (n : Nat) (r : List Nat) :
    read_u64 (u64le n ++ r) = some (n % 18446744073709551616, r) := by
  rw [u64le]
  simp only [List.cons_append, List.nil_append]
  rw [read_u64]
  simp only [Option.some.injEq, Prod.mk.injEq]
  exact ⟨by omega, trivial⟩

lemma readTok_write : ∀ (f : Sparse.Freq) (r : List Nat),
    (∀ p ∈ f, p.1 < 256 ∧ p.2 < 4294967296) →
    Sparse.readTok f.length (f.flatMap (fun e => e.1 % 256 :: u32le e.2) ++ r) =
      some (f, r) := by
  intro f
  induction f with
  | nil => intro r _; rfl
  | cons e rest ih =>
    intro r hp
    obtain ⟨y, p⟩ := e
    have hy : y < 256 := (hp (y, p) (List.mem_cons_self _ _)).1
    have hpc : p < 4294967296 := (hp (y, p) (List.mem_cons_self _ _)).2
    rw [List.flatMap_cons, List.length_cons]
    rw [show ((y, p).1 % 256 :: u32le (y, p).2) ++ rest.flatMap (fun e => e.1 % 256 :: u32le e.2) ++ r =
      (y % 256) :: (u32le p ++ (rest.flatMap (fun e => e.1 % 256 :: u32le e.2) ++ r)) by
        simp [List.cons_append, List.append_assoc]]
    rw [Sparse.readTok]
    simp only [read_u8, Option.some_bind]
    rw [read_u32_u32le]
    simp only [Option.some_bind]
    rw [ih r (fun u hu => hp u (List.mem_cons_of_mem _ hu))]
    simp only [Option.some_bind, Nat.mod_eq_of_lt hy, Nat.mod_eq_of_lt hpc]

lemma freq_read_write (f : Sparse.Freq) (r : List Nat) (hlen : f.length ≤ 255)
    (hp : ∀ p ∈ f, p.1 < 256 ∧ p.2 < 4294967296) :
    Sparse.Freq.read_from (Sparse.Freq.write_to f ++ r) = some (f, r) := by
  rw [Sparse.Freq.write_to, List.cons_append, Sparse.Freq.read_from]
  simp only [read_u8, Option.some_bind]
  rw [Nat.mod_eq_of_lt (show f.length < 256 by omega)]
  exact readTok_write f r hp

lemma findCtx_eq_none {α : Type} : ∀ (m : List (Nat × α)) (c : Nat),
    c ∉ m.map Prod.fst → findCtx m c = none := by
  intro m
  induction m with
  | nil => intro c _; rfl
  | cons e rest ih =>
    intro c hc
    obtain ⟨c1, f⟩ := e
    rw [List.map_cons] at hc
    rw [show findCtx ((c1, f) :: rest) c = if c1 = c then some f else findCtx rest c
      from rfl, if_neg (fun h => hc (List.mem_cons.mpr (Or.inl h.symm)))]
    exact ih c (fun h => hc (List.mem_cons.mpr (Or.inr h)))

lemma insert_not_mem : ∀ (m : Sparse.Model) (c : Nat) (f : Sparse.Freq),
    findCtx m c = none → Sparse.Model.insert m c f = m ++ [(c, f)] := by
  intro m
  induction m with
  | nil => intro c f _; rfl
  | cons e rest ih =>
    intro c f h
    obtain ⟨c1, g⟩ := e
    rw [show findCtx ((c1, g) :: rest) c = if c1 = c then some g else findCtx rest c
      from rfl] at h
    by_cases hcc : c1 = c
    · rw [if_pos hcc] at h
      exact absurd h (by simp)
    · rw [if_neg hcc] at h
      rw [show Sparse.Model.insert ((c1, g) :: rest) c f =
        if c1 = c then (c, f) :: rest else (c1, g) :: Sparse.Model.insert rest c f
        from rfl, if_neg hcc, ih c f h, List.cons_append]

lemma readRecords_write : ∀ (m acc : Sparse.Model) (r : List Nat),
    ((acc ++ m).map Prod.fst).Nodup →
    (∀ e ∈ m, e.1 < 18446744073709551616 ∧ e.2.length ≤ 255 ∧
      ∀ p ∈ e.2, p.1 < 256 ∧ p.2 < 4294967296) →
    Sparse.readRecords m.length acc
      (m.flatMap (fun e => u64le e.1 ++ Sparse.Freq.write_to e.2) ++ r) =
      some (acc ++ m, r) := by
  intro m
  induction m with
  | nil =>
    intro acc r _ _
    rw [List.append_nil]
    rfl
  | cons e rest ih =>
    intro acc r hnd hf
    obtain ⟨c, f⟩ := e
    have hc : c < 18446744073709551616 := (hf (c, f) (List.mem_cons_self _ _)).1
    have hflen : f.length ≤ 255 := (hf (c, f) (List.mem_cons_self _ _)).2.1
    have hfp : ∀ p ∈ f, p.1 < 256 ∧ p.2 < 4294967296 :=
      (hf (c, f) (List.mem_cons_self _ _)).2.2
    rw [List.flatMap_cons, List.length_cons]
    rw [show ((u64le (c, f).1 ++ Sparse.Freq.write_to (c, f).2) ++
        rest.flatMap (fun e => u64le e.1 ++ Sparse.Freq.write_to e.2) ++ r) =
      u64le c ++ (Sparse.Freq.write_to f ++
        (rest.flatMap (fun e => u64le e.1 ++ Sparse.Freq.write_to e.2) ++ r)) by
        simp [List.append_assoc]]
    rw [Sparse.readRecords, read_u64_u64le]
    simp only [Option.some_bind]
    rw [Nat.mod_eq_of_lt hc, freq_read_write f _ hflen hfp]
    simp only [Option.some_bind]
    have hnotin : c ∉ acc.map Prod.fst := by
      intro hin
      rw [List.map_append] at hnd
      have hdisj := (List.nodup_append.mp hnd).2.2
      exact hdisj hin (by rw [List.map_cons]; exact List.mem_cons_self _ _)
    rw [insert_not_mem acc c f (findCtx_eq_none acc c hnotin)]
    have hassoc : acc ++ [(c, f)] ++ rest = acc ++ ((c, f) :: rest) := by
      rw [List.append_assoc, List.singleton_append]
    have := ih (acc ++ [(c, f)]) r (by rw [hassoc]; exact hnd)
      (fun u hu => hf u (List.mem_cons_of_mem _ hu))
    rw [this, hassoc]

/-- C1, amended to what the code satisfies: Schema A round-trips exactly on
well-formed models whose every table has at most 255 entries (the entry
count is written as a single byte, `len as u8`).  Deserializing the
serialized model returns the model itself with no bytes left, and in
particular reproduces all per-context per-byte counts. -/
theorem schema_a_round_trip (m : Sparse.Model) (h : Sparse.Model.wf m) :
    Sparse.Model.read_from (Sparse.Model.write_to m) = some (m, []) ∧
      roundTripContents m := by
  obtain ⟨hlen, hnd, hfields⟩ := h
  have hread : Sparse.Model.read_from (Sparse.Model.write_to m) = some (m, []) := by
    rw [Sparse.Model.write_to, Sparse.Model.read_from, read_u64_u64le]
    simp only [Option.some_bind]
    rw [Nat.mod_eq_of_lt hlen]
    have := readRecords_write m [] [] (by simpa using hnd) hfields
    rw [List.append_nil] at this
    simpa using this
  exact ⟨hread, ⟨(m, []), hread, fun c b => rfl⟩⟩

/-- Witness for C1's amended theorem on a concrete two-context model. -/
theorem schema_a_round_trip_witness :
    Sparse.Model.read_from (Sparse.Model.write_to
        [(5, [(97, 2), (98, 1)]), (1, [(99, 1)])]) =
      some ([(5, [(97, 2), (98, 1)]), (1, [(99, 1)])], []) ∧
      roundTripContents [(5, [(97, 2), (98, 1)]), (1, [(99, 1)])] :=
  schema_a_round_trip [(5, [(97, 2), (98, 1)]), (1, [(99, 1)])] (by decide)

/-- C1, counterexample to the claim as stated: a trained model whose single
context holds all 256 distinct bytes writes its entry count as
`256 as u8 = 0`, so deserializing yields an empty table for that context
and the round trip does not reproduce the contents. -/
theorem schema_a_256_counterexample :
    freq256.length = 256 ∧ (freq256.map Prod.fst).Nodup ∧
      m256 = (List.range 256).foldl (fun mm b => Sparse.Model.push mm 0 b) [] ∧
      ¬ roundTripContents m256 := by
  refine ⟨by decide, by decide, by decide, ?_⟩
  rintro ⟨p, hread, hsame⟩
  have hcomp : (Sparse.Model.read_from (Sparse.Model.write_to m256)).map Prod.fst =
      some [(0, [])] := by decide
  rw [hread] at hcomp
  simp only [Option.map_some'] at hcomp
  have hp1 : p.1 = [(0, [])] := by
    simpa using hcomp
  have h00 := hsame 0 0
  rw [hp1] at h00
  have hL : Sparse.modelCount [(0, [])] 0 0 = 0 := rfl
  have hR : Sparse.modelCount m256 0 0 = 1 := by decide
  rw [hL, hR] at h00
  exact absurd h00 (by omega)
